import Mathlib

/-!
Verification development for `rmobgen.py` (msas-rmobgen): a shallow embedding of
the diurnal aggregator, threshold estimator, text report exporter, color ramp,
location parser and chart-render/save state machine, together with theorems
settling the frozen claims about the program.

Conventions of the embedding:
* Python `dict`s become association lists with in-place-replacing insertion
  (`dictInsert`), which models CPython's insertion-order preservation.
* Python exceptions become `Option`: `none` is a raised exception propagating
  out of the function (aborting the batch / the export cycle).
* Python `float` arithmetic is modelled exactly over `ℚ` (color ramp) and `ℝ`
  (threshold statistics, which involve `sqrt`); machine rounding is out of
  scope of the claims.
* Python `int(str)` is modelled for the ASCII sign-and-digits forms
  (underscore separators and non-ASCII digits are out of scope), and
  `str.isdigit` / `\d` / `\s` are modelled on their ASCII meaning.
-/

namespace Rmob

/-! ## Small Python-style string utilities -/

/-- Python whitespace characters (the ASCII part of `\s` and of `str.strip`). -/
def isPyWS (c : Char) : Bool :=
  c = ' ' || c = '\t' || c = '\n' || c = '\r' || c = '\x0b' || c = '\x0c'

/-- Python `s.split(sep)` for a one-character separator: keeps empty pieces,
and the split of `""` is `[""]`. -/
def splitOnChar (sep : Char) : List Char → List (List Char)
  | [] => [[]]
  | c :: rest =>
    match splitOnChar sep rest with
    | [] => [[]]
    | t :: ts => if c = sep then [] :: t :: ts else (c :: t) :: ts

/-- Python slice `s[a:b]` for `0 ≤ a ≤ b` (never raises, may be short). -/
def sliceL (cs : List Char) (a b : ℕ) : List Char :=
  (cs.drop a).take (b - a)

/-- Strip leading and trailing Python whitespace (as `int()` does). -/
def pyStrip (cs : List Char) : List Char :=
  ((cs.dropWhile isPyWS).reverse.dropWhile isPyWS).reverse

/-- Value of a nonempty all-ASCII-digit string. -/
def digitsVal (cs : List Char) : ℕ :=
  cs.foldl (fun a c => 10 * a + (c.toNat - 48)) 0

/-- Parse a nonempty run of ASCII digits; `none` models a `ValueError`. -/
def digitsToNat (cs : List Char) : Option ℕ :=
  if cs ≠ [] ∧ cs.all Char.isDigit then some (digitsVal cs) else none

/-- Python `int(s)`: optional surrounding whitespace, optional sign, digits.
`none` models the `ValueError` raised on any other input. -/
def pyInt (cs : List Char) : Option ℤ :=
  match pyStrip cs with
  | '+' :: r => (digitsToNat r).map (fun n => (n : ℤ))
  | '-' :: r => (digitsToNat r).map (fun n => -(n : ℤ))
  | r => (digitsToNat r).map (fun n => (n : ℤ))

/-- The character of a decimal digit. -/
def digitChar (d : ℕ) : Char :=
  Char.ofNat (48 + d)

/-- Decimal digit characters of `n`, most significant first; `fuel` bounds
the recursion (any `fuel > log10 n` yields the digits). -/
def natDigitsAux : ℕ → ℕ → List Char
  | 0, _ => []
  | fuel + 1, n =>
    if n < 10 then [digitChar n] else natDigitsAux fuel (n / 10) ++ [digitChar (n % 10)]

/-- Decimal digits of a natural number (no leading zeros; `0` is `"0"`). -/
def natDigits (n : ℕ) : List Char :=
  natDigitsAux (n + 1) n

/-- Pad with `'0'` on the left to width `w` (Python `"{:0w}"` on a number's
digit string). -/
def padZero (w : ℕ) (cs : List Char) : List Char :=
  List.replicate (w - cs.length) '0' ++ cs

/-- Python `"{:03}".format(n)` for an `int` `n` (sign-aware zero padding,
never truncates). -/
def pyFmt03 (n : ℤ) : List Char :=
  if n < 0 then '-' :: padZero 2 (natDigits n.natAbs) else padZero 3 (natDigits n.natAbs)

/-- Python `"{:w}".format(s)` for a string `s`: left-justify, pad with spaces. -/
def pyLjust (w : ℕ) (cs : List Char) : List Char :=
  cs ++ List.replicate (w - cs.length) ' '

/-- Python `"{:02}".format(n)` for a natural number. -/
def fmt2 (n : ℕ) : List Char :=
  padZero 2 (natDigits n)

/-- Python `"{:02}".format(n)` as a `String`. -/
def sFmt2 (n : ℕ) : String :=
  String.mk (fmt2 n)

/-- Zero-pad to four places (`strftime` `%Y` for the years this tool handles). -/
def fmt4 (n : ℕ) : List Char :=
  padZero 4 (natDigits n)

/-- Python `int(float)`-style truncation toward zero of a rational. -/
def pyTrunc (q : ℚ) : ℤ :=
  if q < 0 then ⌈q⌉ else ⌊q⌋

/-! ## Association lists: the embedding of Python `dict` -/

/-- Python `d[k]` lookup returning `none` for a `KeyError`. -/
def dictFind {α β : Type _} [DecidableEq α] (d : List (α × β)) (k : α) : Option β :=
  match d with
  | [] => none
  | (k₁, v) :: t => if k₁ = k then some v else dictFind t k

/-- Python `d[k] = v`: replace in place if the key exists, else append. -/
def dictInsert {α β : Type _} [DecidableEq α] (d : List (α × β)) (k : α) (v : β) :
    List (α × β) :=
  match d with
  | [] => [(k, v)]
  | (k₁, v₁) :: t => if k₁ = k then (k, v) :: t else (k₁, v₁) :: dictInsert t k v

/-- Python `base.update(upd)` for dicts: write every entry of `upd` into
`base`, in `upd`'s order. -/
def dictMerge {α β : Type _} [DecidableEq α] (base upd : List (α × β)) : List (α × β) :=
  upd.foldl (fun b kv => dictInsert b kv.1 kv.2) base

/-- Keys of an association list. -/
def dictKeys {α β : Type _} (d : List (α × β)) : List α :=
  d.map Prod.fst

/-! ## Sorting date keys (Python `sorted` on strings) -/

/-- Lexicographic order on char lists by code point, as Python compares `str`. -/
def keyLeb : List Char → List Char → Bool
  | [], _ => true
  | _ :: _, [] => false
  | a :: as, b :: bs => if a = b then keyLeb as bs else decide (a.toNat < b.toNat)

/-- Insert into a `le`-sorted list. -/
def insertSorted {α : Type _} (le : α → α → Bool) (x : α) : List α → List α
  | [] => [x]
  | y :: ys => if le x y then x :: y :: ys else y :: insertSorted le x ys

/-- Insertion sort; models Python `sorted` (keys here are pairwise distinct,
so stability is immaterial). -/
def isort {α : Type _} (le : α → α → Bool) : List α → List α
  | [] => []
  | x :: xs => insertSorted le x (isort le xs)

/-! ## Proleptic Gregorian calendar (Python `datetime.date`) -/

/-- Gregorian leap-year rule. -/
def isLeap (y : ℕ) : Bool :=
  y % 4 = 0 && (y % 100 ≠ 0 || y % 400 = 0)

/-- Month lengths of year `y`. -/
def monthLengths (y : ℕ) : List ℕ :=
  [31, if isLeap y then 29 else 28, 31, 30, 31, 30, 31, 31, 30, 31, 30, 31]

/-- `calendar.monthrange(y, m).1`: number of days in month `m` of year `y`. -/
def daysInMonth (y m : ℕ) : ℕ :=
  (monthLengths y).getD (m - 1) 0

/-- Days in the months strictly before month `m` of year `y`. -/
def daysBeforeMonth (y m : ℕ) : ℕ :=
  ((monthLengths y).take (m - 1)).sum

/-- `datetime.date(y, m, d).toordinal()`: day number with 0001-01-01 ↦ 1. -/
def ordinalOf (y m d : ℕ) : ℕ :=
  365 * (y - 1) + (y - 1) / 4 - (y - 1) / 100 + (y - 1) / 400 + daysBeforeMonth y m + d

/-- `datetime.date(y, m, d)` validation: `none` models the `ValueError` on an
out-of-range component; on success, the date's ordinal. -/
def mkValidDate (y m d : ℤ) : Option ℕ :=
  if 1 ≤ y ∧ y ≤ 9999 ∧ 1 ≤ m ∧ m ≤ 12 ∧ 1 ≤ d ∧ d ≤ (daysInMonth y.toNat m.toNat : ℤ)
  then some (ordinalOf y.toNat m.toNat d.toNat) else none

/-- Locate the year containing day `rem` (1-based from Jan 1 of year `y`);
`fuel` bounds the recursion and always suffices for `fuel = rem`. -/
def yearFromOrd : ℕ → ℕ → ℕ → Option (ℕ × ℕ)
  | 0, _, _ => none
  | fuel + 1, y, rem =>
    let len := if isLeap y then 366 else 365
    if rem ≤ len then some (y, rem) else yearFromOrd fuel (y + 1) (rem - len)

/-- Locate the month containing day-of-year `doy` in the given month lengths. -/
def monthFromDoy : List ℕ → ℕ → ℕ → Option (ℕ × ℕ)
  | [], _, _ => none
  | len :: rest, m, doy =>
    if doy ≤ len then some (m, doy) else monthFromDoy rest (m + 1) (doy - len)

/-- `datetime.date.fromordinal(n)`: `none` models the `ValueError` for
`n < 1` or `n` beyond year 9999. -/
def fromOrdinal (n : ℕ) : Option (ℕ × ℕ × ℕ) :=
  if n = 0 then none
  else
    match yearFromOrd n 1 n with
    | none => none
    | some (y, doy) =>
      if 9999 < y then none
      else
        match monthFromDoy (monthLengths y) 1 doy with
        | none => none
        | some (m, d) => some (y, m, d)

/-! ## Diurnal aggregator (`RmobData.update`) -/

/-- One successfully parsed observation row. -/
structure Row where
  dateStr : List Char
  dateOrd : ℕ
  hour : ℤ
  count : ℤ
deriving DecidableEq

/-- Parse one raw row, as the body of the `for row in rows` loop does.
`none` models an exception escaping the loop (killing the whole batch);
`some none` a row skipped by the `len(cols) < 3` guard;
`some (some r)` a row contributing to the diurnal table. -/
def parseRow (row : String) : Option (Option Row) :=
  let cols := splitOnChar ',' row.data
  if cols.length < 3 then some none
  else
    let c0 := cols.getD 0 []
    let yearS := sliceL c0 0 4
    let monthS := sliceL c0 4 6
    let dayS := sliceL c0 6 8
    match pyInt (cols.getD 2 []), pyInt yearS, pyInt monthS, pyInt dayS,
        pyInt (cols.getD 1 []) with
    | some count, some y, some mo, some dy, some h =>
      match mkValidDate y mo dy with
      | some dOrd => some (some ⟨yearS ++ '-' :: monthS ++ '-' :: dayS, dOrd, h, count⟩)
      | none => none
    | _, _, _, _, _ => none

/-- Run the row loop over the whole input; `none` as soon as any row raises. -/
def parseRows : List String → Option (List Row)
  | [] => some []
  | r :: rest =>
    match parseRow r with
    | none => none
    | some none => parseRows rest
    | some (some row) => (parseRows rest).map (row :: ·)

/-- The per-call `defaultdict(dict)`: `diurnal[date_str][int(hour)] = count`. -/
def buildDiurnal (rs : List Row) : List (List Char × List (ℤ × ℤ)) :=
  rs.foldl
    (fun D r =>
      dictInsert D r.dateStr (dictInsert ((dictFind D r.dateStr).getD []) r.hour r.count))
    []

/-- Flatten all counts, dates in sorted order, hours in insertion order
(`for date in sorted(diurnal): counts.extend(diurnal[date].values())`). -/
def flattenCounts (D : List (List Char × List (ℤ × ℤ))) : List ℤ :=
  ((isort keyLeb (dictKeys D)).map (fun k => ((dictFind D k).getD []).map Prod.snd)).flatten

/-- `max(l)` of a nonempty list (the default for `[]` is never used: Python
`max([])` raises, which only happens on paths already modelled as `none`). -/
def maxInt : List ℤ → ℤ
  | [] => 0
  | x :: xs => xs.foldl max x

/-- `min(l)` of a nonempty list, same convention as `maxInt`. -/
def minInt : List ℤ → ℤ
  | [] => 0
  | x :: xs => xs.foldl min x

/-- `c = sum(counts) / len(counts)`. -/
noncomputable def meanOf (l : List ℤ) : ℝ :=
  ((l.map fun x => (x : ℝ)).sum) / l.length

/-- `sum((x - c) ** 2 for x in counts)`. -/
noncomputable def sqDevOf (l : List ℤ) : ℝ :=
  (l.map fun x => ((x : ℝ) - meanOf l) ^ 2).sum

/-- The threshold estimator of `RmobData.update` (lines 192-194):
`min(c + sd * 1.28, max(counts))` with `sd = sqrt(Σ(x-c)² / (n+1))`. -/
noncomputable def thresholdVal (l : List ℤ) : ℝ :=
  min (meanOf l + Real.sqrt (sqDevOf l / ((l.length : ℝ) + 1)) * 1.28) ((maxInt l : ℝ))

/-- The mutable fields of `RmobData`. -/
structure RmobState where
  diurnal : List (List Char × List (ℤ × ℤ))
  first_date : ℕ
  last_date : ℕ
  thresholds : List (ℕ × ℝ)

/-- `RmobData.__init__`'s field initialisation (before the first `update`). -/
def initState : RmobState :=
  { diurnal := [], first_date := 3652059, last_date := 0, thresholds := [] }

/-- Ordinal of the last successfully parsed row's date: the value the loop
variable `date_ord` holds when the loop ends (given at least one parsed row). -/
def lastOrd (rs : List Row) : ℕ :=
  (rs.map Row.dateOrd).getLastD 0

/-- The state a successful `update` leaves behind: the local diurnal table
merged into `self.diurnal`, `first_date`/`last_date` folded row by row, and
the threshold inserted under the loop's final `date_ord`. -/
noncomputable def updatedState (s : RmobState) (rs : List Row) : RmobState :=
  { diurnal := dictMerge s.diurnal (buildDiurnal rs)
    first_date := rs.foldl (fun a r => min a r.dateOrd) s.first_date
    last_date := rs.foldl (fun a r => max a r.dateOrd) s.last_date
    thresholds :=
      dictInsert s.thresholds (lastOrd rs) (thresholdVal (flattenCounts (buildDiurnal rs))) }

/-- `RmobData.update` over an already-read row list. The `month` argument of
the source only selects the input file and seeds `date_ord`, which is
overwritten before use whenever `counts` is nonempty, so it does not appear.
`none` models an exception escaping `update` (a row that fails integer or
date parsing, or the `ZeroDivisionError` of `sum(counts)/len(counts)` when no
row was parsed). -/
noncomputable def update (s : RmobState) (rows : List String) : Option RmobState :=
  match parseRows rows with
  | none => none
  | some rs =>
    if flattenCounts (buildDiurnal rs) = [] then none else some (updatedState s rs)

/-- Concrete two-day input file used to exercise the aggregator. -/
def rowsJan : List String :=
  ["20230101,5,3", "20230102,6,4"]

/-- The rows `parseRows` extracts from `rowsJan`. -/
def rsJan : List Row :=
  [⟨"2023-01-01".data, ordinalOf 2023 1 1, 5, 3⟩,
   ⟨"2023-01-02".data, ordinalOf 2023 1 2, 6, 4⟩]

/-! ## Text report exporter (`RmobData.export_rmob_txt`) -/

/-- The station fields the exporter's trailer reads (string-valued fields of
`config.info` plus the coordinate fields of `RmobConfig`); the two decimal
coordinates appear through their Python `str()` rendering. -/
structure StationCfg where
  observer : String
  country : String
  city : String
  antenna : String
  preamp : String
  receiver : String
  method : String
  computer : String
  email : String
  lat : String
  lng : String
  latDecStr : String
  lngDecStr : String
  version : String
  outputStem : String
deriving DecidableEq

/-- The date key the exporter builds via `date.strftime("%Y-%m-%d")`. -/
def dateKey (y m d : ℕ) : List Char :=
  fmt4 y ++ '-' :: fmt2 m ++ '-' :: fmt2 d

/-- `self.thresholds[ord]` with the `except KeyError: threshold = 999999`
fallback. -/
noncomputable def lookupThreshold (ths : List (ℕ × ℝ)) (k : ℕ) : ℝ :=
  (dictFind ths k).getD 999999

/-- One hour cell of a day row: `"??? |"` when the hour is absent or its
count exceeds the threshold, else `"{:03}"` then `"{:4}|"` formatting. -/
noncomputable def exportCell (counts : List (ℤ × ℤ)) (th : ℝ) (h : ℕ) : String :=
  match dictFind counts (h : ℤ) with
  | none => "??? |"
  | some c => if (c : ℝ) > th then "??? |" else String.mk (pyLjust 4 (pyFmt03 c) ++ ['|'])

/-- Python `"{:w}"` right-justification of a string. This definition follows
the SPEC's words for claim C3 ("zero-padded 3-digit count right-aligned in a
4-character field"), for comparison with the source's `exportCell`; the
source left-justifies. -/
def pyRjust (w : ℕ) (cs : List Char) : List Char :=
  List.replicate (w - cs.length) ' ' ++ cs

/-- The numeric cell as claim C3 words it (right-aligned); spec-side
definition for the C3 comparison only. -/
def specCellRightAligned (c : ℤ) : String :=
  String.mk (pyRjust 4 (pyFmt03 c) ++ ['|'])

/-- One day row of the report: `" {:02}|"` then the 24 hour cells. -/
noncomputable def exportDayRow (diurnal : List (List Char × List (ℤ × ℤ)))
    (ths : List (ℕ × ℝ)) (y m d : ℕ) : String :=
  let counts := (dictFind diurnal (dateKey y m d)).getD []
  let th := lookupThreshold ths (ordinalOf y m d)
  " " ++ sFmt2 d ++ "|" ++ String.join ((List.range 24).map fun h => exportCell counts th h)

/-- Lowercased `strftime("%b")` month abbreviation. -/
def monthAbbr (m : ℕ) : String :=
  ["jan", "feb", "mar", "apr", "may", "jun",
    "jul", "aug", "sep", "oct", "nov", "dec"].getD (m - 1) ""

/-- The heading line: month abbreviation then 24 fixed hour labels. -/
def headingLine (m : ℕ) : String :=
  monthAbbr m ++ "|" ++ String.join ((List.range 24).map fun h => " " ++ sFmt2 h ++ "h|")

/-- The fixed trailer block, one `"[Label]value"` line per field, in source
order (including the line that pairs the label `Frequencies` with the decimal
latitude). -/
def trailerLines (cfg : StationCfg) : List String :=
  ["[Observer]" ++ cfg.observer,
    "[Country]" ++ cfg.country,
    "[City]" ++ cfg.city,
    "[Longitude]" ++ cfg.lng,
    "[Latitude ]" ++ cfg.lat,
    "[Longitude GMAP]" ++ cfg.lngDecStr,
    "[Frequencies]" ++ cfg.latDecStr,
    "[Antenna]" ++ cfg.antenna,
    "[Pre-Amplifier]" ++ cfg.preamp,
    "[Receiver]" ++ cfg.receiver,
    "[Observing Method]" ++ cfg.method,
    "[Remarks]" ++ cfg.computer,
    "[Soft FTP]" ++ cfg.version,
    "[E]" ++ cfg.email]

/-- The lines `export_rmob_txt` writes: heading, one row per calendar day of
`last_date`'s month, then the trailer. `none` models the `ValueError` of
`date.fromordinal(self.last_date)` on an invalid ordinal. -/
noncomputable def exportLines (cfg : StationCfg) (s : RmobState) : Option (List String) :=
  (fromOrdinal s.last_date).map fun ymd =>
    headingLine ymd.2.1 ::
      ((List.range' 1 (daysInMonth ymd.1 ymd.2.1)).map fun d =>
        exportDayRow s.diurnal s.thresholds ymd.1 ymd.2.1 d)
      ++ trailerLines cfg

/-- `export_rmob_txt` with its state threaded explicitly: the method reads
`self.diurnal` / `self.thresholds` / `self.last_date` and assigns no field,
so the state component of the result is the input state. -/
noncomputable def exportRmobTxtS (cfg : StationCfg) (s : RmobState) :
    RmobState × Option (List String) :=
  (s, exportLines cfg s)

/-! ## Color ramp (`RmobColorgramme._get_color`) -/

/-- The five ordered guards of `_get_color`, first match wins; `none` models
the fall-through `return None` (shown unreachable in C7). Arithmetic is the
source's, over exact rationals, with Python `int()` truncation. -/
def getColor (value maxValue : ℚ) : Option (ℤ × ℤ × ℤ) :=
  let scale := 255 / maxValue
  if value < 0 then some (5, 5, 5)
  else if value ≤ maxValue / 3 then some (0, pyTrunc (3 * value * scale), 255)
  else if value ≤ maxValue / 3 * 2 then
    some (pyTrunc (3 * value * scale - 255), 255,
      pyTrunc (3 * (maxValue - value) * scale - 255))
  else if value ≤ maxValue then some (255, pyTrunc (3 * (maxValue - value) * scale), 0)
  else if maxValue < value then some (128, 128, 128)
  else none

/-! ## Location parsing (`dms2dec` and `RmobConfig.__init__`) -/

/-- Any of the hemisphere letters `[swSW]` occurs (the `re.search` of
`dms2dec`). -/
def hasSW (cs : List Char) : Bool :=
  cs.any fun c => c = 's' || c = 'w' || c = 'S' || c = 'W'

/-- Character-by-character worker for `re.split("\D+", s, maxsplit=ms)`:
`ms` counts the splits still allowed, `inRun` whether we are inside a
non-digit run already consumed by a split. The head of the result is the
token currently being accumulated. -/
def reSplitAux : List Char → ℕ → Bool → List (List Char)
  | [], _, _ => [[]]
  | c :: rest, ms, inRun =>
    if c.isDigit then
      match reSplitAux rest ms false with
      | [] => [[c]]
      | t :: ts => (c :: t) :: ts
    else
      if inRun then reSplitAux rest ms true
      else
        match ms with
        | 0 => [c :: rest]
        | ms₁ + 1 => [] :: reSplitAux rest ms₁ true

/-- `re.split("\D+", s, maxsplit=ms)`. -/
def reSplitND (ms : ℕ) (cs : List Char) : List (List Char) :=
  reSplitAux cs ms false

/-- `dms2dec`: strip whitespace, sign from any `[swSW]` letter, split into at
most four numeric components (degree, minute, second, fractional second).
`none` models the `IndexError` of `numbers[0]` when the string holds no digit
and the `ValueError` of `int`/`float` on a junk-bearing component (the
exotic case where Python accepts a junk component as scientific notation is
out of scope). -/
def dms2dec (cs : List Char) : Option ℚ :=
  let s := cs.filter fun c => !isPyWS c
  let sign : ℚ := if hasSW s then -1 else 1
  let numbers := (reSplitND 4 s).filter (· ≠ [])
  match numbers.get? 0 with
  | none => none
  | some degT =>
    let minT := numbers.getD 1 ['0']
    let secT := numbers.getD 2 ['0']
    let fracT := numbers.getD 3 ['0']
    match digitsToNat degT, digitsToNat minT, digitsToNat secT, digitsToNat fracT with
    | some deg, some minu, some sec, some frac =>
      some (sign * ((deg : ℚ) + (minu : ℚ) / 60 +
        ((sec : ℚ) + (frac : ℚ) / 10 ^ fracT.length) / 3600))
    | _, _, _, _ => none

/-- Python `s[-i]` for `i ≥ 1`: `none` models the `IndexError` when the
string is shorter than `i`. -/
def pyNegGet (cs : List Char) (i : ℕ) : Option Char :=
  if cs.length < i then none else cs.get? (cs.length - i)

/-- The token normalisation `if loc[i][-2].isdigit(): loc[i] = loc[i][:-1] +
" " + loc[i][-1:]` (raises on tokens shorter than two characters). -/
def fixTok (t : List Char) : Option (List Char) :=
  match pyNegGet t 2 with
  | none => none
  | some c => some (if c.isDigit then t.dropLast ++ [' ', t.getLastD ' '] else t)

/-- The coordinate fields `RmobConfig.__init__` derives from
`info["location"]`. -/
structure LocParse where
  lat : List Char
  lng : List Char
  latDec : ℚ
  lngDec : ℚ
deriving DecidableEq

/-- The location-parsing tail of `RmobConfig.__init__`: split on a single
space, normalise the first two tokens, pick latitude as the token ending in
`N`/`S`, and convert both with `dms2dec`. `none` models any escaping
exception. -/
def parseLocation (cs : List Char) : Option LocParse :=
  let loc := splitOnChar ' ' cs
  match loc.get? 0 with
  | none => none
  | some t0 =>
    match fixTok t0 with
    | none => none
    | some t0 =>
      match loc.get? 1 with
      | none => none
      | some t1 =>
        match fixTok t1 with
        | none => none
        | some t1 =>
          let lngThenLat := t0.getLastD ' ' = 'N' || t0.getLastD ' ' = 'S'
          let lat := if lngThenLat then t0 else t1
          let lng := if lngThenLat then t1 else t0
          match dms2dec lat, dms2dec lng with
          | some latD, some lngD => some ⟨lat, lng, latD, lngD⟩
          | _, _ => none

/-! ## Chart renderer state machine (`RmobColorgramme`) -/

/-- The data a rendered colorgramme is computed from: the histogram's
threshold and in-threshold peak, the heatmap's in-threshold peak, and the
average threshold used for dates without their own entry. The actual pixel
drawing is pure output and carries no further program state. -/
structure ImageData where
  histThreshold : ℝ
  histPeak : ℤ × ℤ
  heatPeak : ℤ × ℤ
  thresholdAvg : ℝ

/-- `RmobColorgramme`'s state: the aggregated data plus the `_img` attribute
that `render` creates and `save` requires. -/
structure CgState where
  data : RmobState
  img : Option ImageData

/-- `threshold_avg = sum(self.data.thresholds.values()) / len(...)`. -/
noncomputable def thresholdAvgOf (ths : List (ℕ × ℝ)) : ℝ :=
  (ths.map Prod.snd).sum / ths.length

/-- The `(hour, count)` peak scan shared by histogram and heatmap:
`if count > peak[1] and count <= threshold: peak = (hour, count)`. -/
noncomputable def peakScan (hours : List (ℤ × ℤ)) (th : ℝ) (p : ℤ × ℤ) : ℤ × ℤ :=
  hours.foldl (fun q hc => if hc.2 > q.2 ∧ (hc.2 : ℝ) ≤ th then hc else q) p

/-- Parse a diurnal key back to an ordinal, as `_render_heatmap` does with
`strptime(date, "%Y-%m-%d")`; `none` models the `ValueError` on a key whose
components do not parse. -/
def parseDateKey (cs : List Char) : Option ℕ :=
  match splitOnChar '-' cs with
  | [ys, ms, ds] =>
    match pyInt ys, pyInt ms, pyInt ds with
    | some y, some m, some d => mkValidDate y m d
    | _, _, _ => none
  | _ => none

/-- The heatmap's peak over all dates, each against its own threshold or the
average (`except KeyError: threshold = threshold_avg`). `none` models a
`strptime` failure. -/
noncomputable def heatPeakCalc (diurnal : List (List Char × List (ℤ × ℤ)))
    (ths : List (ℕ × ℝ)) (avg : ℝ) : Option (ℤ × ℤ) :=
  diurnal.foldl
    (fun acc e =>
      match acc with
      | none => none
      | some p =>
        match parseDateKey e.1 with
        | none => none
        | some dOrd => some (peakScan e.2 ((dictFind ths dOrd).getD avg) p))
    (some (0, 0))

/-- `render()` / `render_month(None)`: fails on an invalid `last_date`
ordinal (`fromordinal`), a missing threshold for `last_date` (the histogram's
`KeyError`), or an unparsable diurnal key (the heatmap's `strptime`); on
success stores the computed image and leaves the aggregated data unchanged. -/
noncomputable def renderMonth (cg : CgState) : Option CgState :=
  match fromOrdinal cg.data.last_date with
  | none => none
  | some ymd =>
    match dictFind cg.data.thresholds cg.data.last_date with
    | none => none
    | some th =>
      let counts := (dictFind cg.data.diurnal (dateKey ymd.1 ymd.2.1 ymd.2.2)).getD []
      let avg := thresholdAvgOf cg.data.thresholds
      match heatPeakCalc cg.data.diurnal cg.data.thresholds avg with
      | none => none
      | some hp =>
        some { data := cg.data,
               img := some ⟨th, peakScan counts th (0, 0), hp, avg⟩ }

/-- `save(path)`: raises (`none`) before `render` has run; otherwise returns
the written path, deriving the default from `last_date` when no path is
given. The state, in particular the aggregated data, is returned unchanged. -/
noncomputable def save (cfg : StationCfg) (cg : CgState) (path : Option String) :
    Option (CgState × String) :=
  match cg.img with
  | none => none
  | some _ =>
    match path with
    | some p => some (cg, p)
    | none =>
      (fromOrdinal cg.data.last_date).map fun ymd =>
        (cg, cfg.outputStem ++ "_" ++ String.mk (fmt2 ymd.2.1 ++ fmt4 ymd.1) ++ ".jpg")

/-- Fixed station profile used by the frame-property witness. -/
def cfgC10 : StationCfg :=
  ⟨"o", "c", "ci", "a", "p", "r", "m", "co", "e", "la", "lo", "lad", "lod", "v", "out"⟩

/-- A small aggregator state (one threshold entry for ordinal 1). -/
noncomputable def stC10 : RmobState :=
  ⟨[], 3652059, 1, [(1, 0)]⟩

/-- A colorgramme over `stC10` before `render`. -/
noncomputable def cgC10 : CgState :=
  ⟨stC10, none⟩

/-- The colorgramme `render` produces from `cgC10`. -/
noncomputable def cgC10r : CgState :=
  ⟨stC10, some ⟨0, (0, 0), (0, 0), thresholdAvgOf [(1, 0)]⟩⟩

/-! ## Dictionary lemmas -/

section DictLemmas

variable {α : Type _} {β : Type _} [DecidableEq α]

theorem dictInsert_ne_nil (d : List (α × β)) (k : α) (v : β) : dictInsert d k v ≠ [] := by
  cases d with
  | nil => simp [dictInsert]
  | cons kv t =>
    obtain ⟨k₁, v₁⟩ := kv
    simp only [dictInsert]
    split <;> simp

theorem dictFind_dictInsert_self (d : List (α × β)) (k : α) (v : β) :
    dictFind (dictInsert d k v) k = some v := by
  induction d with
  | nil => simp [dictInsert, dictFind]
  | cons kv t ih =>
    obtain ⟨k₁, v₁⟩ := kv
    by_cases h : k₁ = k
    · simp [dictInsert, h, dictFind]
    · simp [dictInsert, h, dictFind, ih]

theorem dictFind_dictInsert_ne {d : List (α × β)} {k k₂ : α} (v : β) (h : k ≠ k₂) :
    dictFind (dictInsert d k v) k₂ = dictFind d k₂ := by
  induction d with
  | nil => simp [dictInsert, dictFind, h]
  | cons kv t ih =>
    obtain ⟨k₁, v₁⟩ := kv
    by_cases h₁ : k₁ = k
    · subst h₁; simp [dictInsert, dictFind, h]
    · simp [dictInsert, h₁, dictFind, ih]

theorem dictInsert_of_dictFind {d : List (α × β)} {k : α} {v : β}
    (h : dictFind d k = some v) : dictInsert d k v = d := by
  induction d with
  | nil => simp [dictFind] at h
  | cons kv t ih =>
    obtain ⟨k₁, v₁⟩ := kv
    by_cases hk : k₁ = k
    · subst hk
      simp [dictFind] at h
      simp [dictInsert, h]
    · simp [dictFind, hk] at h
      simp [dictInsert, hk, ih h]

theorem dictInsert_dictInsert_same (d : List (α × β)) (k : α) (v : β) :
    dictInsert (dictInsert d k v) k v = dictInsert d k v :=
  dictInsert_of_dictFind (dictFind_dictInsert_self d k v)

theorem mem_dictKeys_dictInsert {d : List (α × β)} {k k₁ : α} {v : β} :
    k₁ ∈ dictKeys (dictInsert d k v) ↔ k₁ ∈ dictKeys d ∨ k₁ = k := by
  induction d with
  | nil => simp [dictInsert, dictKeys]
  | cons kv t ih =>
    obtain ⟨k₂, v₂⟩ := kv
    by_cases h : k₂ = k
    · subst h; simp [dictInsert, dictKeys]; tauto
    · simp [dictInsert, h, dictKeys] at ih ⊢
      rw [ih]; tauto

theorem nodup_dictKeys_dictInsert {d : List (α × β)} (k : α) (v : β)
    (h : (dictKeys d).Nodup) : (dictKeys (dictInsert d k v)).Nodup := by
  induction d with
  | nil => simp [dictInsert, dictKeys]
  | cons kv t ih =>
    obtain ⟨k₂, v₂⟩ := kv
    rw [show dictKeys ((k₂, v₂) :: t) = k₂ :: dictKeys t from rfl, List.nodup_cons] at h
    by_cases hk : k₂ = k
    · subst hk
      have hins : dictInsert ((k₂, v₂) :: t) k₂ v = (k₂, v) :: t := by
        simp [dictInsert]
      rw [hins, show dictKeys ((k₂, v) :: t) = k₂ :: dictKeys t from rfl, List.nodup_cons]
      exact h
    · simp only [dictInsert, if_neg hk]
      rw [show dictKeys ((k₂, v₂) :: dictInsert t k v) = k₂ :: dictKeys (dictInsert t k v)
          from rfl,
        List.nodup_cons]
      refine ⟨fun hmem => ?_, ih h.2⟩
      rcases mem_dictKeys_dictInsert.1 hmem with h₃ | h₃
      · exact h.1 h₃
      · exact hk h₃

theorem mem_dictInsert {d : List (α × β)} {k : α} {v : β} {x : α × β}
    (h : x ∈ dictInsert d k v) : x ∈ d ∨ x = (k, v) := by
  induction d with
  | nil => simpa [dictInsert] using h
  | cons kv t ih =>
    obtain ⟨k₁, v₁⟩ := kv
    by_cases hk : k₁ = k
    · subst hk
      simp only [dictInsert, if_pos rfl] at h
      rcases List.mem_cons.1 h with h | h
      · exact Or.inr h
      · exact Or.inl (List.mem_cons_of_mem _ h)
    · simp only [dictInsert, if_neg hk] at h
      rcases List.mem_cons.1 h with h | h
      · exact Or.inl (by rw [h]; exact List.mem_cons_self _ _)
      · rcases ih h with h₁ | h₁
        · exact Or.inl (List.mem_cons_of_mem _ h₁)
        · exact Or.inr h₁

theorem exists_dictFind_of_mem_keys {d : List (α × β)} {k : α} (h : k ∈ dictKeys d) :
    ∃ v, dictFind d k = some v := by
  induction d with
  | nil => simp [dictKeys] at h
  | cons kv t ih =>
    obtain ⟨k₁, v₁⟩ := kv
    by_cases hk : k₁ = k
    · exact ⟨v₁, by simp [dictFind, hk]⟩
    · simp [dictKeys, hk] at h
      rcases h with h | h
      · exact absurd h.symm hk
      · obtain ⟨v, hv⟩ := ih (by simpa [dictKeys] using h)
        exact ⟨v, by simp [dictFind, hk, hv]⟩

theorem mem_of_dictFind {d : List (α × β)} {k : α} {v : β}
    (h : dictFind d k = some v) : (k, v) ∈ d := by
  induction d with
  | nil => simp [dictFind] at h
  | cons kv t ih =>
    obtain ⟨k₁, v₁⟩ := kv
    by_cases hk : k₁ = k
    · subst hk
      simp [dictFind] at h
      simp [h]
    · simp [dictFind, hk] at h
      exact List.mem_cons_of_mem _ (ih h)

theorem dictMerge_cons (b : List (α × β)) (k : α) (v : β) (t : List (α × β)) :
    dictMerge b ((k, v) :: t) = dictMerge (dictInsert b k v) t := rfl

theorem dictFind_dictMerge_not_mem {b u : List (α × β)} {k : α}
    (h : k ∉ dictKeys u) : dictFind (dictMerge b u) k = dictFind b k := by
  induction u generalizing b with
  | nil => rfl
  | cons kv t ih =>
    obtain ⟨k₁, v₁⟩ := kv
    simp [dictKeys] at h
    rw [dictMerge_cons, ih (by simpa [dictKeys] using h.2),
      dictFind_dictInsert_ne _ (fun he => h.1 he.symm)]

theorem dictMerge_idem {u : List (α × β)} (b : List (α × β))
    (h : (dictKeys u).Nodup) : dictMerge (dictMerge b u) u = dictMerge b u := by
  induction u generalizing b with
  | nil => rfl
  | cons kv t ih =>
    obtain ⟨k, v⟩ := kv
    have hn : k ∉ dictKeys t ∧ (dictKeys t).Nodup := by
      simpa [dictKeys] using h
    rw [dictMerge_cons, dictMerge_cons]
    have hfind : dictFind (dictMerge (dictInsert b k v) t) k = some v := by
      rw [dictFind_dictMerge_not_mem hn.1, dictFind_dictInsert_self]
    rw [dictInsert_of_dictFind hfind]
    exact ih _ hn.2

end DictLemmas

/-! ## Fold lemmas for the running date range -/

section FoldLemmas

variable {γ : Type _}

theorem foldl_min_le_init (f : γ → ℕ) (a : ℕ) (l : List γ) :
    l.foldl (fun b x => min b (f x)) a ≤ a := by
  induction l generalizing a with
  | nil => exact le_refl a
  | cons x xs ih => exact le_trans (ih _) (min_le_left _ _)

theorem foldl_min_le_mem (f : γ → ℕ) {x : γ} {l : List γ} (hx : x ∈ l) (a : ℕ) :
    l.foldl (fun b y => min b (f y)) a ≤ f x := by
  induction l generalizing a with
  | nil => simp at hx
  | cons y ys ih =>
    rcases List.mem_cons.1 hx with h | h
    · subst h
      simp only [List.foldl_cons]
      exact le_trans (foldl_min_le_init _ _ _) (min_le_right _ _)
    · exact ih h _

theorem foldl_min_fix (f : γ → ℕ) {l : List γ} {a : ℕ} (h : ∀ x ∈ l, a ≤ f x) :
    l.foldl (fun b x => min b (f x)) a = a := by
  induction l with
  | nil => rfl
  | cons y ys ih =>
    have h₁ : min a (f y) = a := min_eq_left (h y (List.mem_cons_self _ _))
    simp only [List.foldl_cons, h₁]
    exact ih fun x hx => h x (List.mem_cons_of_mem _ hx)

theorem foldl_max_init_le (f : γ → ℕ) (a : ℕ) (l : List γ) :
    a ≤ l.foldl (fun b x => max b (f x)) a := by
  induction l generalizing a with
  | nil => exact le_refl a
  | cons x xs ih => exact le_trans (le_max_left _ _) (ih _)

theorem foldl_max_mem_le (f : γ → ℕ) {x : γ} {l : List γ} (hx : x ∈ l) (a : ℕ) :
    f x ≤ l.foldl (fun b y => max b (f y)) a := by
  induction l generalizing a with
  | nil => simp at hx
  | cons y ys ih =>
    rcases List.mem_cons.1 hx with h | h
    · subst h
      simp only [List.foldl_cons]
      exact le_trans (le_max_right _ _) (foldl_max_init_le _ _ _)
    · exact ih h _

theorem foldl_max_fix (f : γ → ℕ) {l : List γ} {a : ℕ} (h : ∀ x ∈ l, f x ≤ a) :
    l.foldl (fun b x => max b (f x)) a = a := by
  induction l with
  | nil => rfl
  | cons y ys ih =>
    have h₁ : max a (f y) = a := max_eq_left (h y (List.mem_cons_self _ _))
    simp only [List.foldl_cons, h₁]
    exact ih fun x hx => h x (List.mem_cons_of_mem _ hx)

end FoldLemmas

/-! ## Sorting and diurnal-table lemmas -/

theorem insertSorted_ne_nil {α : Type _} (le : α → α → Bool) (x : α) (l : List α) :
    insertSorted le x l ≠ [] := by
  cases l with
  | nil => simp [insertSorted]
  | cons y ys =>
    simp only [insertSorted]
    split <;> simp

theorem mem_insertSorted {α : Type _} {le : α → α → Bool} {x y : α} {l : List α} :
    y ∈ insertSorted le x l ↔ y = x ∨ y ∈ l := by
  induction l with
  | nil => simp [insertSorted]
  | cons z zs ih =>
    simp only [insertSorted]
    split
    · simp [List.mem_cons]
    · simp [List.mem_cons, ih]; tauto

theorem isort_eq_nil_iff {α : Type _} {le : α → α → Bool} {l : List α} :
    isort le l = [] ↔ l = [] := by
  cases l with
  | nil => simp [isort]
  | cons x xs => simp [isort, insertSorted_ne_nil]

theorem mem_isort {α : Type _} {le : α → α → Bool} {y : α} {l : List α} :
    y ∈ isort le l ↔ y ∈ l := by
  induction l with
  | nil => simp [isort]
  | cons x xs ih => simp [isort, mem_insertSorted, ih]

theorem buildDiurnal_foldl_values {rs : List Row}
    {D : List (List Char × List (ℤ × ℤ))} (hD : ∀ kv ∈ D, kv.2 ≠ ([] : List (ℤ × ℤ))) :
    ∀ kv ∈ rs.foldl
      (fun D r =>
        dictInsert D r.dateStr (dictInsert ((dictFind D r.dateStr).getD []) r.hour r.count))
      D, kv.2 ≠ [] := by
  induction rs generalizing D with
  | nil => exact hD
  | cons r rest ih =>
    refine ih fun kv hkv => ?_
    rcases mem_dictInsert hkv with h | h
    · exact hD kv h
    · rw [h]
      exact dictInsert_ne_nil _ _ _

theorem buildDiurnal_values_ne_nil (rs : List Row) :
    ∀ kv ∈ buildDiurnal rs, kv.2 ≠ [] :=
  buildDiurnal_foldl_values (by simp)

theorem buildDiurnal_foldl_ne_nil {rs : List Row}
    {D : List (List Char × List (ℤ × ℤ))} (hD : D ≠ []) :
    rs.foldl
      (fun D r =>
        dictInsert D r.dateStr (dictInsert ((dictFind D r.dateStr).getD []) r.hour r.count))
      D ≠ [] := by
  induction rs generalizing D with
  | nil => exact hD
  | cons r rest ih => exact ih (dictInsert_ne_nil _ _ _)

theorem buildDiurnal_ne_nil {rs : List Row} (h : rs ≠ []) : buildDiurnal rs ≠ [] := by
  cases rs with
  | nil => exact absurd rfl h
  | cons r rest =>
    unfold buildDiurnal
    rw [List.foldl_cons]
    exact buildDiurnal_foldl_ne_nil (dictInsert_ne_nil _ _ _)

theorem buildDiurnal_foldl_nodup {rs : List Row}
    {D : List (List Char × List (ℤ × ℤ))} (hD : (dictKeys D).Nodup) :
    (dictKeys
      (rs.foldl
        (fun D r =>
          dictInsert D r.dateStr (dictInsert ((dictFind D r.dateStr).getD []) r.hour r.count))
        D)).Nodup := by
  induction rs generalizing D with
  | nil => exact hD
  | cons r rest ih => exact ih (nodup_dictKeys_dictInsert _ _ hD)

theorem nodup_dictKeys_buildDiurnal (rs : List Row) :
    (dictKeys (buildDiurnal rs)).Nodup :=
  buildDiurnal_foldl_nodup (by simp [dictKeys])

theorem flattenCounts_eq_nil {D : List (List Char × List (ℤ × ℤ))}
    (hvals : ∀ kv ∈ D, kv.2 ≠ []) : flattenCounts D = [] ↔ D = [] := by
  constructor
  · intro h
    by_contra hD
    have hkeys : dictKeys D ≠ [] := by
      cases D with
      | nil => exact absurd rfl hD
      | cons kv t => simp [dictKeys]
    obtain ⟨k, hk⟩ := List.exists_mem_of_ne_nil _ (isort_eq_nil_iff.not.2 hkeys)
    have hkD : k ∈ dictKeys D := mem_isort.1 hk
    obtain ⟨v, hv⟩ := exists_dictFind_of_mem_keys hkD
    rw [flattenCounts, List.flatten_eq_nil_iff] at h
    have hcomp := h (((dictFind D k).getD []).map Prod.snd)
      (List.mem_map_of_mem _ hk)
    rw [hv] at hcomp
    simp at hcomp
    exact hvals (k, v) (mem_of_dictFind hv) hcomp
  · rintro rfl; rfl

theorem flattenCounts_buildDiurnal_eq_nil (rs : List Row) :
    flattenCounts (buildDiurnal rs) = [] ↔ rs = [] := by
  constructor
  · intro h
    by_contra hrs
    exact buildDiurnal_ne_nil hrs
      ((flattenCounts_eq_nil (buildDiurnal_values_ne_nil rs)).1 h)
  · rintro rfl; rfl

/-! ## Aggregator lemmas -/

theorem update_eq_some {s : RmobState} {rows : List String} {rs : List Row}
    (hp : parseRows rows = some rs) (hc : flattenCounts (buildDiurnal rs) ≠ []) :
    update s rows = some (updatedState s rs) := by
  unfold update
  rw [hp]
  simp [hc]

theorem update_eq_none_of_empty {s : RmobState} {rows : List String} {rs : List Row}
    (hp : parseRows rows = some rs) (hc : flattenCounts (buildDiurnal rs) = []) :
    update s rows = none := by
  unfold update
  rw [hp]
  simp [hc]

theorem update_eq_none_of_parse {s : RmobState} {rows : List String}
    (hp : parseRows rows = none) : update s rows = none := by
  unfold update
  rw [hp]

theorem update_congr {s : RmobState} {rows₁ rows₂ : List String}
    (h : parseRows rows₁ = parseRows rows₂) : update s rows₁ = update s rows₂ := by
  unfold update
  rw [h]

theorem updatedState_fix (s : RmobState) (rs : List Row) :
    updatedState (updatedState s rs) rs = updatedState s rs := by
  unfold updatedState
  simp only [RmobState.mk.injEq]
  refine ⟨?_, ?_, ?_, ?_⟩
  · exact dictMerge_idem _ (nodup_dictKeys_buildDiurnal rs)
  · exact foldl_min_fix _ fun r hr => foldl_min_le_mem _ hr _
  · exact foldl_max_fix _ fun r hr => foldl_max_mem_le _ hr _
  · exact dictInsert_dictInsert_same _ _ _

theorem dictFind_singleton {α β : Type _} [DecidableEq α] (k k₁ : α) (v : β) :
    dictFind [(k₁, v)] k = if k₁ = k then some v else none := by
  simp [dictFind]

theorem parseRow_of_short {bad : String} (h : (splitOnChar ',' bad.data).length < 3) :
    parseRow bad = some none := by
  unfold parseRow
  simp [h]

theorem parseRows_skip {pre post : List String} {bad : String}
    (h : parseRow bad = some none) :
    parseRows (pre ++ bad :: post) = parseRows (pre ++ post) := by
  induction pre with
  | nil => simp [parseRows, h]
  | cons r t ih =>
    cases hr : parseRow r with
    | none => simp [parseRows, hr]
    | some o =>
      cases o with
      | none => simpa [parseRows, hr] using ih
      | some row₁ => simp [parseRows, hr, ih]

theorem parseRows_raise {pre post : List String} {row : String}
    (h : parseRow row = none) : parseRows (pre ++ row :: post) = none := by
  induction pre with
  | nil => simp [parseRows, h]
  | cons r t ih =>
    cases hr : parseRow r with
    | none => simp [parseRows, hr]
    | some o =>
      cases o with
      | none => simpa [parseRows, hr] using ih
      | some row₁ => simp [parseRows, hr, ih]

/-! ## Claims C2, C4, C6, C8: the aggregation pass -/

/-- C8: aggregation followed by threshold estimation is idempotent — running
the pass a second time over the same rows changes none of the diurnal table,
`first_date`/`last_date`, and the threshold map (and a failing pass stays
failing). -/
theorem C8_idempotent (s : RmobState) (rows : List String) :
    (update s rows).bind (fun t => update t rows) = update s rows := by
  cases hp : parseRows rows with
  | none => simp [update_eq_none_of_parse hp]
  | some rs =>
    by_cases hc : flattenCounts (buildDiurnal rs) = []
    · simp [update_eq_none_of_empty hp hc]
    · rw [update_eq_some hp hc]
      show update (updatedState s rs) rows = some (updatedState s rs)
      rw [update_eq_some hp hc, updatedState_fix]

/-- C6: when no row raises, threshold estimation aborts `update` (the
`ZeroDivisionError` of `sum(counts)/len(counts)`) exactly when the row set
yields zero valid counts; with at least one parsed row it never fails. -/
theorem C6_empty_fail (s : RmobState) (rows : List String) (rs : List Row)
    (hp : parseRows rows = some rs) :
    update s rows = none ↔ rs = [] := by
  constructor
  · intro h
    by_contra hrs
    have hc : flattenCounts (buildDiurnal rs) ≠ [] :=
      fun h0 => hrs ((flattenCounts_buildDiurnal_eq_nil rs).1 h0)
    rw [update_eq_some hp hc] at h
    cases h
  · rintro rfl
    exact update_eq_none_of_empty hp rfl

/-- C6 witness: a file whose single line has fewer than three fields parses
to zero rows and makes `update` fail. -/
theorem C6_witness :
    parseRows ["junk"] = some [] ∧ (update initState ["junk"] = none ↔ ([] : List Row) = []) :=
  ⟨by decide, C6_empty_fail initState ["junk"] [] (by decide)⟩

/-- C2 (amended): a row with fewer than three comma-separated fields is
discarded silently (dropping it does not change the aggregation), but a row
with at least three fields whose hour, count or date fails integer parsing or
date validation aborts the whole batch — `update` raises instead of skipping
that row. -/
theorem C2_amended :
    (∀ (s : RmobState) (pre post : List String) (bad : String),
      (splitOnChar ',' bad.data).length < 3 →
      update s (pre ++ bad :: post) = update s (pre ++ post))
    ∧ (∀ (s : RmobState) (pre post : List String) (row : String),
      parseRow row = none → update s (pre ++ row :: post) = none) := by
  constructor
  · intro s pre post bad hb
    exact update_congr (parseRows_skip (parseRow_of_short hb))
  · intro s pre post row hr
    exact update_eq_none_of_parse (parseRows_raise hr)

/-- C2 witness: dropping the two-field row `"x;y"` leaves the aggregation of
a well-formed row unchanged, while a non-numeric hour field kills the batch. -/
theorem C2_witness :
    ((splitOnChar ',' "x;y".data).length < 3
      ∧ update initState (["20230101,0,5"] ++ "x;y" :: [])
          = update initState (["20230101,0,5"] ++ []))
    ∧ (parseRow "20230101,xx,7" = none
      ∧ update initState (["20230101,0,5"] ++ "20230101,xx,7" :: []) = none) :=
  ⟨⟨by decide, C2_amended.1 initState ["20230101,0,5"] [] "x;y" (by decide)⟩,
    ⟨by decide, C2_amended.2 initState ["20230101,0,5"] [] "20230101,xx,7" (by decide)⟩⟩

/-- C2 is false as stated: the batch `["20230101,0,5", "20230101,xx,7"]`
raises (the non-numeric hour is not skipped and the well-formed first row is
not aggregated), although the same first row alone aggregates fine. -/
theorem C2_counterexample :
    update initState ["20230101,0,5", "20230101,xx,7"] = none
    ∧ (update initState ["20230101,0,5"]).isSome = true := by
  constructor
  · exact update_eq_none_of_parse (by decide)
  · rw [@update_eq_some initState ["20230101,0,5"]
      [⟨"2023-01-01".data, ordinalOf 2023 1 1, 0, 5⟩] (by decide) (by decide)]
    rfl

/-- C4 (amended): after one aggregation pass from a fresh state, the
threshold map holds exactly one entry, keyed by the ordinal of the LAST
successfully parsed row's date (not the first day of the covered month); the
exporter's per-day lookup returns that threshold for exactly that day and the
999999 fallback for every other ordinal. -/
theorem C4_amended (rows : List String) (rs : List Row) (t : RmobState)
    (hp : parseRows rows = some rs) (hu : update initState rows = some t) :
    t.thresholds = [(lastOrd rs, thresholdVal (flattenCounts (buildDiurnal rs)))]
    ∧ lookupThreshold t.thresholds (lastOrd rs)
        = thresholdVal (flattenCounts (buildDiurnal rs))
    ∧ ∀ k, k ≠ lastOrd rs → lookupThreshold t.thresholds k = 999999 := by
  have hc : flattenCounts (buildDiurnal rs) ≠ [] := by
    intro h0
    rw [update_eq_none_of_empty hp h0] at hu
    cases hu
  rw [update_eq_some hp hc] at hu
  have ht : t = updatedState initState rs := by
    injection hu with h
    exact h.symm
  subst ht
  refine ⟨rfl, ?_, fun k hk => ?_⟩
  · show lookupThreshold [(lastOrd rs, thresholdVal (flattenCounts (buildDiurnal rs)))] _ = _
    unfold lookupThreshold
    rw [dictFind_singleton, if_pos rfl, Option.getD_some]
  · show lookupThreshold [(lastOrd rs, thresholdVal (flattenCounts (buildDiurnal rs)))] k
        = 999999
    unfold lookupThreshold
    rw [dictFind_singleton, if_neg fun he => hk he.symm, Option.getD_none]

/-- C4 witness: the two-day January 2023 file instantiates the amended claim. -/
theorem C4_witness :
    (parseRows rowsJan = some rsJan
      ∧ update initState rowsJan = some (updatedState initState rsJan))
    ∧ ((updatedState initState rsJan).thresholds
          = [(lastOrd rsJan, thresholdVal (flattenCounts (buildDiurnal rsJan)))]
      ∧ lookupThreshold (updatedState initState rsJan).thresholds (lastOrd rsJan)
          = thresholdVal (flattenCounts (buildDiurnal rsJan))
      ∧ ∀ k, k ≠ lastOrd rsJan →
          lookupThreshold (updatedState initState rsJan).thresholds k = 999999) :=
  ⟨⟨by decide, rfl⟩, C4_amended rowsJan rsJan _ (by decide) rfl⟩

/-- C4 is false as stated: aggregating the January 2023 rows keys the single
threshold entry by the ordinal of 2023-01-02 (the last row's date), not by
the first-day ordinal of the month, and the exporter's lookup for day 1 of
the month falls back to 999999 instead of finding the period's threshold. -/
theorem C4_counterexample :
    (update initState rowsJan).map
        (fun t => (dictKeys t.thresholds, lookupThreshold t.thresholds (ordinalOf 2023 1 1)))
      = some ([ordinalOf 2023 1 2], 999999)
    ∧ ordinalOf 2023 1 2 ≠ ordinalOf 2023 1 1 := by
  constructor
  · rfl
  · decide

/-! ## Claim C1: the threshold formula and its bounds -/

theorem foldlMin_le_start {α : Type _} [LinearOrder α] (a : α) (l : List α) :
    l.foldl min a ≤ a := by
  induction l generalizing a with
  | nil => exact le_refl a
  | cons x xs ih => exact le_trans (ih _) (min_le_left _ _)

theorem foldlMin_le_of_mem {α : Type _} [LinearOrder α] {x : α} {l : List α}
    (hx : x ∈ l) (a : α) : l.foldl min a ≤ x := by
  induction l generalizing a with
  | nil => simp at hx
  | cons y ys ih =>
    rcases List.mem_cons.1 hx with h | h
    · subst h
      simp only [List.foldl_cons]
      exact le_trans (foldlMin_le_start _ _) (min_le_right _ _)
    · exact ih h _

theorem start_le_foldlMax {α : Type _} [LinearOrder α] (a : α) (l : List α) :
    a ≤ l.foldl max a := by
  induction l generalizing a with
  | nil => exact le_refl a
  | cons x xs ih => exact le_trans (le_max_left _ _) (ih _)

theorem mem_le_foldlMax {α : Type _} [LinearOrder α] {x : α} {l : List α}
    (hx : x ∈ l) (a : α) : x ≤ l.foldl max a := by
  induction l generalizing a with
  | nil => simp at hx
  | cons y ys ih =>
    rcases List.mem_cons.1 hx with h | h
    · subst h
      simp only [List.foldl_cons]
      exact le_trans (le_max_right _ _) (start_le_foldlMax _ _)
    · exact ih h _

theorem minInt_le_mem {l : List ℤ} {x : ℤ} (hx : x ∈ l) : minInt l ≤ x := by
  cases l with
  | nil => simp at hx
  | cons y ys =>
    rcases List.mem_cons.1 hx with h | h
    · subst h
      exact foldlMin_le_start _ _
    · exact foldlMin_le_of_mem h _

theorem mem_le_maxInt {l : List ℤ} {x : ℤ} (hx : x ∈ l) : x ≤ maxInt l := by
  cases l with
  | nil => simp at hx
  | cons y ys =>
    rcases List.mem_cons.1 hx with h | h
    · subst h
      exact start_le_foldlMax _ _
    · exact mem_le_foldlMax h _

theorem minInt_le_maxInt {l : List ℤ} (h : l ≠ []) : minInt l ≤ maxInt l := by
  cases l with
  | nil => exact absurd rfl h
  | cons y ys =>
    exact le_trans (minInt_le_mem (List.mem_cons_self _ _))
      (mem_le_maxInt (List.mem_cons_self _ _))

theorem length_mul_le_sum {l : List ℤ} {m : ℤ} (h : ∀ x ∈ l, m ≤ x) :
    (l.length : ℤ) * m ≤ l.sum := by
  induction l with
  | nil => simp
  | cons x xs ih =>
    have h₁ := ih fun y hy => h y (List.mem_cons_of_mem _ hy)
    have h₂ := h x (List.mem_cons_self _ _)
    simp only [List.length_cons, List.sum_cons]
    push_cast
    nlinarith

theorem cast_list_sum (l : List ℤ) :
    ((l.sum : ℤ) : ℝ) = (l.map fun x => (x : ℝ)).sum := by
  induction l with
  | nil => simp
  | cons x xs ih => simp [ih]

theorem minInt_le_meanOf {l : List ℤ} (h : l ≠ []) : (minInt l : ℝ) ≤ meanOf l := by
  have hlen : 0 < (l.length : ℝ) := by
    have := List.length_pos.2 h
    exact_mod_cast this
  rw [meanOf, le_div_iff₀ hlen, ← cast_list_sum]
  have hz : (l.length : ℤ) * minInt l ≤ l.sum :=
    length_mul_le_sum fun x hx => minInt_le_mem hx
  calc (minInt l : ℝ) * l.length = ((l.length * minInt l : ℤ) : ℝ) := by push_cast; ring
    _ ≤ ((l.sum : ℤ) : ℝ) := by exact_mod_cast hz

theorem minInt_le_thresholdVal {l : List ℤ} (h : l ≠ []) :
    (minInt l : ℝ) ≤ thresholdVal l := by
  unfold thresholdVal
  refine le_min ?_ ?_
  · have h₁ : (minInt l : ℝ) ≤ meanOf l := minInt_le_meanOf h
    have h₂ : 0 ≤ Real.sqrt (sqDevOf l / ((l.length : ℝ) + 1)) * 1.28 := by positivity
    linarith
  · exact_mod_cast minInt_le_maxInt h

/-- C1 (amended): for every nonempty count list the threshold equals
`min(c + 1.28*sd, max counts)` with the n+1-denominator dispersion, and it
satisfies BOTH bounds: it never exceeds the maximum count and never falls
below the minimum count (the claim's "can be below the min" part is
impossible). -/
theorem C1_amended (l : List ℤ) (h : l ≠ []) :
    thresholdVal l
        = min (meanOf l + 1.28 * Real.sqrt (sqDevOf l / ((l.length : ℝ) + 1)))
            ((maxInt l : ℝ))
    ∧ thresholdVal l ≤ (maxInt l : ℝ)
    ∧ (minInt l : ℝ) ≤ thresholdVal l := by
  refine ⟨?_, ?_, minInt_le_thresholdVal h⟩
  · rw [thresholdVal, mul_comm (Real.sqrt (sqDevOf l / ((l.length : ℝ) + 1))) 1.28]
  · unfold thresholdVal
    exact min_le_right _ _

/-- C1 witness: the singleton count list `[3]`. -/
theorem C1_witness :
    ([(3 : ℤ)] ≠ [])
    ∧ (thresholdVal [3]
          = min (meanOf [3] + 1.28 * Real.sqrt (sqDevOf [3] / (([(3 : ℤ)].length : ℝ) + 1)))
              ((maxInt [3] : ℝ))
      ∧ thresholdVal [3] ≤ (maxInt [3] : ℝ)
      ∧ (minInt [3] : ℝ) ≤ thresholdVal [3]) :=
  ⟨by decide, C1_amended [3] (by decide)⟩

/-- C1's "threshold can fall below the minimum count" part is false: no
nonempty count list has its threshold strictly below the minimum count. -/
theorem C1_counterexample :
    ¬ ∃ l : List ℤ, l ≠ [] ∧ thresholdVal l < (minInt l : ℝ) := by
  rintro ⟨l, hl, hlt⟩
  exact absurd (minInt_le_thresholdVal hl) (not_le.2 hlt)

/-! ## Claims C5 and C7: the color ramp -/

theorem pyTrunc_bounds {q : ℚ} (h0 : 0 ≤ q) (h255 : q ≤ 255) :
    0 ≤ pyTrunc q ∧ pyTrunc q ≤ 255 := by
  unfold pyTrunc
  rw [if_neg (not_lt.2 h0)]
  constructor
  · exact Int.floor_nonneg.2 h0
  · have h₂ : ⌊q⌋ ≤ ⌊(255 : ℚ)⌋ := Int.floor_le_floor (le_trans h255 (le_refl 255))
    simpa using h₂

/-- C5: the ramp endpoints and the out-of-range sentinel — 0 maps to pure
blue, the scale maximum to pure red, and any value above the maximum to the
flat gray used for masked cells. -/
theorem C5_ramp (M : ℚ) (hM : 0 < M) :
    getColor 0 M = some (0, 0, 255)
    ∧ getColor M M = some (255, 0, 0)
    ∧ ∀ v : ℚ, M < v → getColor v M = some (128, 128, 128) := by
  have h3 : M / 3 < M := by linarith
  have h23 : M / 3 * 2 < M := by linarith
  refine ⟨?_, ?_, fun v hv => ?_⟩
  · simp only [getColor]
    rw [if_neg (by norm_num), if_pos (by positivity)]
    norm_num [pyTrunc]
  · simp only [getColor]
    rw [if_neg (not_lt.2 hM.le), if_neg (not_le.2 h3), if_neg (not_le.2 h23),
      if_pos (le_refl M)]
    norm_num [pyTrunc]
  · simp only [getColor]
    rw [if_neg (not_lt.2 (le_trans hM.le hv.le)), if_neg (not_le.2 (lt_trans h3 hv)),
      if_neg (not_le.2 (lt_trans h23 hv)), if_neg (not_le.2 hv), if_pos hv]

/-- C5 witness: scale maximum 3 and out-of-range value 4. -/
theorem C5_witness :
    ((0 : ℚ) < 3)
    ∧ (getColor 0 3 = some (0, 0, 255)
      ∧ getColor 3 3 = some (255, 0, 0)
      ∧ ∀ v : ℚ, 3 < v → getColor v 3 = some (128, 128, 128)) :=
  ⟨by norm_num, C5_ramp 3 (by norm_num)⟩

/-- C7: the five ordered guards cover every input, so the ramp always returns
a color (the fall-through returning nothing is unreachable), and each channel
lies in [0, 255] by construction, with no explicit clamping in the code. -/
theorem C7_total (v M : ℚ) (hM : 0 < M) :
    ∃ r g b : ℤ, getColor v M = some (r, g, b)
      ∧ 0 ≤ r ∧ r ≤ 255 ∧ 0 ≤ g ∧ g ≤ 255 ∧ 0 ≤ b ∧ b ≤ 255 := by
  have e1 : 3 * v * (255 / M) = 3 * v * 255 / M := by ring
  have e2 : 3 * (M - v) * (255 / M) = 3 * (M - v) * 255 / M := by ring
  have ha : (3 : ℚ) * (M / 3) = M := by ring
  have ha2 : (3 : ℚ) * (M / 3 * 2) = 2 * M := by ring
  simp only [getColor]
  split_ifs with h1 h2 h3 h4 h5
  · exact ⟨5, 5, 5, rfl, by norm_num, by norm_num, by norm_num, by norm_num,
      by norm_num, by norm_num⟩
  · have hv : 0 ≤ v := not_lt.1 h1
    have h2b : 3 * v ≤ M := by linarith
    have hlb : 0 ≤ 3 * v * (255 / M) := by
      rw [e1, le_div_iff₀ hM]
      nlinarith
    have hub : 3 * v * (255 / M) ≤ 255 := by
      rw [e1, div_le_iff₀ hM]
      nlinarith
    obtain ⟨g0, g255⟩ := pyTrunc_bounds hlb hub
    exact ⟨0, pyTrunc (3 * v * (255 / M)), 255, rfl, by norm_num, by norm_num,
      g0, g255, by norm_num, by norm_num⟩
  · have hm3 : M < 3 * v := by
      have := not_le.1 h2
      linarith
    have h3b : 3 * v ≤ 2 * M := by linarith
    have ht1 : 255 ≤ 3 * v * (255 / M) := by
      rw [e1, le_div_iff₀ hM]
      nlinarith
    have ht2 : 3 * v * (255 / M) ≤ 510 := by
      rw [e1, div_le_iff₀ hM]
      nlinarith
    have hu1 : 255 ≤ 3 * (M - v) * (255 / M) := by
      rw [e2, le_div_iff₀ hM]
      nlinarith
    have hu2 : 3 * (M - v) * (255 / M) ≤ 510 := by
      rw [e2, div_le_iff₀ hM]
      nlinarith
    obtain ⟨r0, r255⟩ := pyTrunc_bounds (by linarith : (0 : ℚ) ≤ 3 * v * (255 / M) - 255)
      (by linarith : 3 * v * (255 / M) - 255 ≤ 255)
    obtain ⟨b0, b255⟩ := pyTrunc_bounds
      (by linarith : (0 : ℚ) ≤ 3 * (M - v) * (255 / M) - 255)
      (by linarith : 3 * (M - v) * (255 / M) - 255 ≤ 255)
    exact ⟨pyTrunc (3 * v * (255 / M) - 255), 255, pyTrunc (3 * (M - v) * (255 / M) - 255),
      rfl, r0, r255, by norm_num, by norm_num, b0, b255⟩
  · have hm23 : 2 * M < 3 * v := by
      have := not_le.1 h3
      linarith
    have hu0 : 0 ≤ 3 * (M - v) * (255 / M) := by
      rw [e2, le_div_iff₀ hM]
      nlinarith
    have hu255 : 3 * (M - v) * (255 / M) ≤ 255 := by
      rw [e2, div_le_iff₀ hM]
      nlinarith
    obtain ⟨g0, g255⟩ := pyTrunc_bounds hu0 hu255
    exact ⟨255, pyTrunc (3 * (M - v) * (255 / M)), 0, rfl, by norm_num, by norm_num,
      g0, g255, by norm_num, by norm_num⟩
  · exact ⟨128, 128, 128, rfl, by norm_num, by norm_num, by norm_num, by norm_num,
      by norm_num, by norm_num⟩
  · exact absurd (lt_of_not_le h4) h5

/-- C7 witness: value 1 against scale maximum 3. -/
theorem C7_witness :
    ((0 : ℚ) < 3)
    ∧ ∃ r g b : ℤ, getColor 1 3 = some (r, g, b)
      ∧ 0 ≤ r ∧ r ≤ 255 ∧ 0 ≤ g ∧ g ≤ 255 ∧ 0 ≤ b ∧ b ≤ 255 :=
  ⟨by norm_num, C7_total 1 3 (by norm_num)⟩

/-! ## Claim C3: the exporter's cells -/

theorem exportCell_absent {counts : List (ℤ × ℤ)} {th : ℝ} {h : ℕ}
    (hf : dictFind counts (h : ℤ) = none) : exportCell counts th h = "??? |" := by
  unfold exportCell
  rw [hf]

theorem exportCell_masked {counts : List (ℤ × ℤ)} {th : ℝ} {h : ℕ} {c : ℤ}
    (hf : dictFind counts (h : ℤ) = some c) (hlt : th < (c : ℝ)) :
    exportCell counts th h = "??? |" := by
  unfold exportCell
  rw [hf]
  exact if_pos hlt

theorem exportCell_shown {counts : List (ℤ × ℤ)} {th : ℝ} {h : ℕ} {c : ℤ}
    (hf : dictFind counts (h : ℤ) = some c) (hle : (c : ℝ) ≤ th) :
    exportCell counts th h = String.mk (pyLjust 4 (pyFmt03 c) ++ ['|']) := by
  unfold exportCell
  rw [hf]
  exact if_neg (not_lt.2 hle)

theorem mem_natDigitsAux {fuel n : ℕ} {ch : Char} (h : ch ∈ natDigitsAux fuel n) :
    ∃ d, d < 10 ∧ ch = digitChar d := by
  induction fuel generalizing n with
  | zero => simp [natDigitsAux] at h
  | succ fuel ih =>
    unfold natDigitsAux at h
    split at h
    · next hn =>
      simp at h
      exact ⟨n, hn, h⟩
    · next hn =>
      rcases List.mem_append.1 h with h₁ | h₁
      · exact ih h₁
      · simp at h₁
        exact ⟨n % 10, Nat.mod_lt _ (by norm_num), h₁⟩

theorem mem_pyFmt03 {c : ℤ} {ch : Char} (h : ch ∈ pyFmt03 c) :
    ch = '-' ∨ ch = '0' ∨ ∃ d, d < 10 ∧ ch = digitChar d := by
  unfold pyFmt03 at h
  split at h
  · rcases List.mem_cons.1 h with h₁ | h₁
    · exact Or.inl h₁
    · unfold padZero at h₁
      rcases List.mem_append.1 h₁ with h₂ | h₂
      · exact Or.inr (Or.inl (List.eq_of_mem_replicate h₂))
      · exact Or.inr (Or.inr (mem_natDigitsAux h₂))
  · unfold padZero at h
    rcases List.mem_append.1 h with h₂ | h₂
    · exact Or.inr (Or.inl (List.eq_of_mem_replicate h₂))
    · exact Or.inr (Or.inr (mem_natDigitsAux h₂))

theorem pyFmt03_ne_nil (c : ℤ) : pyFmt03 c ≠ [] := by
  unfold pyFmt03
  split
  · simp
  · unfold padZero
    intro h
    rcases List.append_eq_nil.1 h with ⟨-, h₂⟩
    have : natDigitsAux (c.natAbs + 1) c.natAbs ≠ [] := by
      unfold natDigitsAux
      split <;> simp
    exact this h₂

theorem formatted_ne_placeholder (c : ℤ) :
    String.mk (pyLjust 4 (pyFmt03 c) ++ ['|']) ≠ "??? |" := by
  intro he
  have hl : pyLjust 4 (pyFmt03 c) ++ ['|'] = ['?', '?', '?', ' ', '|'] :=
    congrArg String.data he
  cases hf : pyFmt03 c with
  | nil => exact pyFmt03_ne_nil c hf
  | cons ch rest =>
    rw [hf] at hl
    unfold pyLjust at hl
    simp only [List.cons_append] at hl
    have hch : ch = '?' := (List.cons.injEq _ _ _ _ ▸ hl).1
    have hmem : ch ∈ pyFmt03 c := by
      rw [hf]
      exact List.mem_cons_self _ _
    rcases mem_pyFmt03 hmem with h₁ | h₁ | ⟨d, hd, h₁⟩
    · rw [hch] at h₁
      exact absurd h₁ (by decide)
    · rw [hch] at h₁
      exact absurd h₁ (by decide)
    · rw [hch] at h₁
      interval_cases d <;> exact absurd h₁ (by decide)

/-- C3 (amended): a cell of a day row renders the zero-padded 3-digit count
LEFT-aligned in a 4-character field (digits, then a space) followed by `|`
exactly when the hour is present and does not exceed the threshold; otherwise
the literal placeholder `"??? |"`, which no numeric cell equals; a date with
no threshold entry uses the 999999 sentinel, disabling masking for that row. -/
theorem C3_amended :
    (∀ (counts : List (ℤ × ℤ)) (th : ℝ) (h : ℕ),
      dictFind counts (h : ℤ) = none → exportCell counts th h = "??? |")
    ∧ (∀ (counts : List (ℤ × ℤ)) (th : ℝ) (h : ℕ) (c : ℤ),
      dictFind counts (h : ℤ) = some c → th < (c : ℝ) → exportCell counts th h = "??? |")
    ∧ (∀ (counts : List (ℤ × ℤ)) (th : ℝ) (h : ℕ) (c : ℤ),
      dictFind counts (h : ℤ) = some c → (c : ℝ) ≤ th →
        exportCell counts th h = String.mk (pyLjust 4 (pyFmt03 c) ++ ['|'])
          ∧ exportCell counts th h ≠ "??? |")
    ∧ (∀ (ths : List (ℕ × ℝ)) (k : ℕ),
      dictFind ths k = none → lookupThreshold ths k = 999999) := by
  refine ⟨fun _ _ _ hf => exportCell_absent hf,
    fun _ _ _ _ hf hlt => exportCell_masked hf hlt,
    fun _ _ _ c hf hle => ⟨exportCell_shown hf hle, ?_⟩,
    fun ths k hf => ?_⟩
  · rw [exportCell_shown hf hle]
    exact formatted_ne_placeholder c
  · unfold lookupThreshold
    rw [hf, Option.getD_none]

/-- C3 witness: an absent hour, a masked count (5 against threshold 0), a
shown count (5 against threshold 999999), and a missing threshold entry. -/
theorem C3_witness :
    (dictFind ([] : List (ℤ × ℤ)) ((0 : ℕ) : ℤ) = none
      ∧ exportCell [] (0 : ℝ) 0 = "??? |")
    ∧ (dictFind [((0 : ℤ), 5)] ((0 : ℕ) : ℤ) = some 5 ∧ (0 : ℝ) < ((5 : ℤ) : ℝ)
      ∧ exportCell [((0 : ℤ), 5)] (0 : ℝ) 0 = "??? |")
    ∧ (dictFind [((0 : ℤ), 5)] ((0 : ℕ) : ℤ) = some 5 ∧ (((5 : ℤ) : ℝ)) ≤ 999999
      ∧ exportCell [((0 : ℤ), 5)] (999999 : ℝ) 0
          = String.mk (pyLjust 4 (pyFmt03 5) ++ ['|'])
      ∧ exportCell [((0 : ℤ), 5)] (999999 : ℝ) 0 ≠ "??? |")
    ∧ (dictFind ([] : List (ℕ × ℝ)) 5 = none ∧ lookupThreshold [] 5 = 999999) :=
  ⟨⟨rfl, C3_amended.1 [] 0 0 rfl⟩,
    ⟨rfl, by norm_num, C3_amended.2.1 [((0 : ℤ), 5)] 0 0 5 rfl (by norm_num)⟩,
    ⟨rfl, by norm_num,
      (C3_amended.2.2.1 [((0 : ℤ), 5)] 999999 0 5 rfl (by norm_num)).1,
      (C3_amended.2.2.1 [((0 : ℤ), 5)] 999999 0 5 rfl (by norm_num)).2⟩,
    ⟨rfl, C3_amended.2.2.2 [] 5 rfl⟩⟩

/-- C3 is false as stated: a shown count of 5 renders as `"005 |"` — the
zero-padded digits LEFT-aligned (space after the digits) — not as the
right-aligned `" 005|"` the claim describes. -/
theorem C3_counterexample :
    exportCell [((0 : ℤ), 5)] (999999 : ℝ) 0 = "005 |"
    ∧ specCellRightAligned 5 = " 005|"
    ∧ exportCell [((0 : ℤ), 5)] (999999 : ℝ) 0 ≠ specCellRightAligned 5 := by
  have hc : exportCell [((0 : ℤ), 5)] (999999 : ℝ) 0
      = String.mk (pyLjust 4 (pyFmt03 5) ++ ['|']) :=
    exportCell_shown rfl (by norm_num)
  refine ⟨?_, by decide, ?_⟩
  · rw [hc]
    decide
  · rw [hc]
    decide

/-! ## Claim C9: location parsing -/

theorem isPyWS_of_isDigit {c : Char} (h : c.isDigit = true) : isPyWS c = false := by
  by_cases h1 : c = ' '
  · subst h1; exact absurd h (by decide)
  by_cases h2 : c = '\t'
  · subst h2; exact absurd h (by decide)
  by_cases h3 : c = '\n'
  · subst h3; exact absurd h (by decide)
  by_cases h4 : c = '\r'
  · subst h4; exact absurd h (by decide)
  by_cases h5 : c = '\x0b'
  · subst h5; exact absurd h (by decide)
  by_cases h6 : c = '\x0c'
  · subst h6; exact absurd h (by decide)
  simp [isPyWS, h1, h2, h3, h4, h5, h6]

theorem not_sw_of_isDigit {c : Char} (h : c.isDigit = true) :
    (c = 's' || c = 'w' || c = 'S' || c = 'W') = false := by
  by_cases h1 : c = 's'
  · subst h1; exact absurd h (by decide)
  by_cases h2 : c = 'w'
  · subst h2; exact absurd h (by decide)
  by_cases h3 : c = 'S'
  · subst h3; exact absurd h (by decide)
  by_cases h4 : c = 'W'
  · subst h4; exact absurd h (by decide)
  simp [h1, h2, h3, h4]

theorem hasSW_digits {ds : List Char} (hd : ds.all Char.isDigit = true) :
    hasSW ds = false := by
  rw [hasSW, List.any_eq_false]
  intro c hc
  have := not_sw_of_isDigit (List.all_eq_true.1 hd c hc)
  simp only [this]
  exact Bool.false_ne_true

theorem filter_ws_digits {ds : List Char} (hd : ds.all Char.isDigit = true) :
    (ds.filter fun c => !isPyWS c) = ds :=
  List.filter_eq_self.2 fun c hc => by
    rw [isPyWS_of_isDigit (List.all_eq_true.1 hd c hc)]
    rfl

theorem reSplitAux_cons (c : Char) (rest : List Char) (ms : ℕ) (inRun : Bool) :
    reSplitAux (c :: rest) ms inRun =
      if c.isDigit then
        match reSplitAux rest ms false with
        | [] => [[c]]
        | t :: ts => (c :: t) :: ts
      else
        if inRun then reSplitAux rest ms true
        else
          match ms with
          | 0 => [c :: rest]
          | ms₁ + 1 => [] :: reSplitAux rest ms₁ true := rfl

theorem reSplitAux_digits {ds : List Char} (hd : ds.all Char.isDigit = true) (ms : ℕ) :
    reSplitAux ds ms false = [ds] := by
  induction ds with
  | nil => rfl
  | cons c cs ih =>
    rw [List.all_cons, Bool.and_eq_true] at hd
    rw [reSplitAux_cons, if_pos hd.1, ih hd.2]

theorem reSplitAux_digits_letter {ds : List Char} (hd : ds.all Char.isDigit = true)
    {c : Char} (hc : c.isDigit = false) (ms : ℕ) :
    reSplitAux (ds ++ [c]) (ms + 1) false = [ds, []] := by
  induction ds with
  | nil =>
    show reSplitAux (c :: []) (ms + 1) false = [[], []]
    rw [reSplitAux_cons, if_neg (by rw [hc]; exact Bool.false_ne_true), if_neg (by decide)]
    exact rfl
  | cons d dsr ih =>
    rw [List.all_cons, Bool.and_eq_true] at hd
    show reSplitAux (d :: (dsr ++ [c])) (ms + 1) false = [d :: dsr, []]
    rw [reSplitAux_cons, if_pos hd.1, ih hd.2]

theorem digitsToNat_of_digits {ds : List Char} (hne : ds ≠ [])
    (hd : ds.all Char.isDigit = true) : digitsToNat ds = some (digitsVal ds) := by
  unfold digitsToNat
  rw [if_pos ⟨hne, hd⟩]

theorem dms2dec_digits {ds : List Char} (hne : ds ≠ [])
    (hd : ds.all Char.isDigit = true) : dms2dec ds = some ((digitsVal ds : ℚ)) := by
  have hflt : ((reSplitND 4 ds).filter (· ≠ [])) = [ds] := by
    rw [show reSplitND 4 ds = [ds] from reSplitAux_digits hd 4]
    simp [hne]
  simp only [dms2dec, filter_ws_digits hd, hasSW_digits hd, hflt,
    List.get?_cons_zero, List.getD_cons_succ, List.getD_cons_zero, List.getD_nil,
    digitsToNat_of_digits hne hd, show digitsToNat ['0'] = some 0 from rfl]
  norm_num

theorem filter_ws_digits_letter {ds : List Char} (hd : ds.all Char.isDigit = true)
    (c : Char) (hws : isPyWS c = false) :
    ((ds ++ [c]).filter fun x => !isPyWS x) = ds ++ [c] :=
  List.filter_eq_self.2 fun x hx => by
    rcases List.mem_append.1 hx with h | h
    · rw [isPyWS_of_isDigit (List.all_eq_true.1 hd x h)]
      rfl
    · simp at h
      rw [h, hws]
      rfl

theorem dms2dec_digits_W {ds : List Char} (hne : ds ≠ [])
    (hd : ds.all Char.isDigit = true) :
    dms2dec (ds ++ ['W']) = some (-(digitsVal ds : ℚ)) := by
  have hsw : hasSW (ds ++ ['W']) = true := by
    rw [hasSW, List.any_append]
    simp
  have hsplit : reSplitND 4 (ds ++ ['W']) = [ds, []] :=
    reSplitAux_digits_letter hd (by decide) 3
  have hflt : ((reSplitND 4 (ds ++ ['W'])).filter (· ≠ [])) = [ds] := by
    rw [hsplit]
    simp [hne]
  simp only [dms2dec, filter_ws_digits_letter hd 'W' (by decide), hsw, hflt,
    List.get?_cons_zero, List.getD_cons_succ, List.getD_cons_zero, List.getD_nil,
    digitsToNat_of_digits hne hd, show digitsToNat ['0'] = some 0 from rfl]
  norm_num

theorem dms2dec_digits_N {ds : List Char} (hne : ds ≠ [])
    (hd : ds.all Char.isDigit = true) :
    dms2dec (ds ++ ['N']) = some ((digitsVal ds : ℚ)) := by
  have hsw : hasSW (ds ++ ['N']) = false := by
    rw [hasSW, List.any_append,
      show (ds.any fun c => c = 's' || c = 'w' || c = 'S' || c = 'W') = hasSW ds from rfl,
      hasSW_digits hd]
    rfl
  have hsplit : reSplitND 4 (ds ++ ['N']) = [ds, []] :=
    reSplitAux_digits_letter hd (by decide) 3
  have hflt : ((reSplitND 4 (ds ++ ['N'])).filter (· ≠ [])) = [ds] := by
    rw [hsplit]
    simp [hne]
  simp only [dms2dec, filter_ws_digits_letter hd 'N' (by decide), hsw, hflt,
    List.get?_cons_zero, List.getD_cons_succ, List.getD_cons_zero, List.getD_nil,
    digitsToNat_of_digits hne hd, show digitsToNat ['0'] = some 0 from rfl]
  norm_num

theorem dms2dec_52N : dms2dec "52 N".data = some (52 : ℚ) := by
  have h : dms2dec "52 N".data = dms2dec (['5', '2'] ++ ['N']) := by
    simp only [dms2dec]
    rw [show ("52 N".data.filter fun c => !isPyWS c)
        = ((['5', '2'] ++ ['N']).filter fun c => !isPyWS c) from rfl]
  rw [h, dms2dec_digits_N (by decide) (by decide)]
  norm_num [show digitsVal ['5', '2'] = 52 from rfl]

theorem dms2dec_1W : dms2dec "1 W".data = some (-1 : ℚ) := by
  have h : dms2dec "1 W".data = dms2dec (['1'] ++ ['W']) := by
    simp only [dms2dec]
    rw [show ("1 W".data.filter fun c => !isPyWS c)
        = ((['1'] ++ ['W']).filter fun c => !isPyWS c) from rfl]
  rw [h, dms2dec_digits_W (by decide) (by decide)]
  norm_num [show digitsVal ['1'] = 1 from rfl]

theorem parseLoc_compact :
    parseLocation "52N 1W".data = some ⟨"52 N".data, "1 W".data, 52, -1⟩ := by
  have e : parseLocation "52N 1W".data
      = (match dms2dec "52 N".data, dms2dec "1 W".data with
          | some latD, some lngD =>
            some (⟨"52 N".data, "1 W".data, latD, lngD⟩ : LocParse)
          | _, _ => none) := rfl
  rw [e, dms2dec_52N, dms2dec_1W]

/-- C9 (amended): the compact location string `"52N 1W"` (no space between
degrees and hemisphere letter) parses to `lat = "52 N"`, `lng = "1 W"`,
decimal latitude +52 and decimal longitude -1; the spaced form `"52 N 1 W"`
raises instead. In general `dms2dec` negates exactly when a hemisphere
letter S/W is present, and missing minutes/seconds default to 0 (a bare
degree string is its own value). -/
theorem C9_amended :
    parseLocation "52N 1W".data = some ⟨"52 N".data, "1 W".data, 52, -1⟩
    ∧ ∀ ds : List Char, ds ≠ [] → ds.all Char.isDigit = true →
        dms2dec ds = some ((digitsVal ds : ℚ))
        ∧ dms2dec (ds ++ ['W']) = some (-(digitsVal ds : ℚ))
        ∧ dms2dec (ds ++ ['N']) = some ((digitsVal ds : ℚ)) := by
  refine ⟨parseLoc_compact, fun ds hne hd => ⟨dms2dec_digits hne hd,
    dms2dec_digits_W hne hd, dms2dec_digits_N hne hd⟩⟩

/-- C9 witness: the degree string `"52"`. -/
theorem C9_witness :
    ((['5', '2'] : List Char) ≠ [] ∧ (['5', '2'] : List Char).all Char.isDigit = true)
    ∧ (dms2dec ['5', '2'] = some ((digitsVal ['5', '2'] : ℚ))
      ∧ dms2dec (['5', '2'] ++ ['W']) = some (-(digitsVal ['5', '2'] : ℚ))
      ∧ dms2dec (['5', '2'] ++ ['N']) = some ((digitsVal ['5', '2'] : ℚ))) :=
  ⟨⟨by decide, by decide⟩, C9_amended.2 ['5', '2'] (by decide) (by decide)⟩

/-- C9 is false as stated: the exact scenario string `"52 N 1 W"` does not
parse at all — `loc[1]` is the bare letter `"N"`, whose `[-2]` access raises
an IndexError — so it cannot yield `lat="52 N"`, `lng="1 W"`. -/
theorem C9_counterexample :
    parseLocation "52 N 1 W".data = none
    ∧ parseLocation "52 N 1 W".data ≠ some ⟨"52 N".data, "1 W".data, 52, -1⟩ := by
  refine ⟨by decide, by decide⟩

/-! ## Claim C10: export, render and save do not mutate the aggregator -/

/-- C10: `export_rmob_txt` returns its state untouched, a successful
`render` keeps the aggregated data identical, `save` returns the state it was
given (and raises before `render` has run); only `update` writes the diurnal
table, the date range and the threshold map. -/
theorem C10_frame :
    (∀ (cfg : StationCfg) (s : RmobState), (exportRmobTxtS cfg s).1 = s)
    ∧ (∀ cg cg₁ : CgState, renderMonth cg = some cg₁ → cg₁.data = cg.data)
    ∧ (∀ (cfg : StationCfg) (cg cg₁ : CgState) (p : Option String) (pth : String),
      save cfg cg p = some (cg₁, pth) → cg₁.data = cg.data)
    ∧ (∀ (cfg : StationCfg) (cg : CgState) (p : Option String),
      cg.img = none → save cfg cg p = none) := by
  refine ⟨fun cfg s => rfl, fun cg cg₁ h => ?_, fun cfg cg cg₁ p pth h => ?_,
    fun cfg cg p h => ?_⟩
  · simp only [renderMonth] at h
    split at h
    · cases h
    · split at h
      · cases h
      · split at h
        · cases h
        · injection h with h
          rw [← h]
  · simp only [save] at h
    split at h
    · cases h
    · split at h
      · injection h with h
        injection h with hcg hpth
        rw [← hcg]
      · rcases Option.map_eq_some'.1 h with ⟨ymd, h₂, h₃⟩
        injection h₃ with hcg hpth
        rw [← hcg]
  · simp only [save, h]

/-- C10 witness: concrete export, render and save runs over `stC10`. -/
theorem C10_witness :
    (exportRmobTxtS cfgC10 stC10).1 = stC10
    ∧ (renderMonth cgC10 = some cgC10r ∧ cgC10r.data = cgC10.data)
    ∧ (save cfgC10 cgC10r (some "a.jpg") = some (cgC10r, "a.jpg")
      ∧ cgC10r.data = cgC10r.data)
    ∧ (cgC10.img = none ∧ save cfgC10 cgC10 (some "a.jpg") = none) := by
  have hrend : renderMonth cgC10 = some cgC10r := rfl
  have hsave : save cfgC10 cgC10r (some "a.jpg") = some (cgC10r, "a.jpg") := rfl
  exact ⟨C10_frame.1 cfgC10 stC10, ⟨hrend, C10_frame.2.1 cgC10 cgC10r hrend⟩,
    ⟨hsave, C10_frame.2.2.1 cfgC10 cgC10r cgC10r (some "a.jpg") "a.jpg" hsave⟩,
    ⟨rfl, C10_frame.2.2.2 cfgC10 cgC10 (some "a.jpg") rfl⟩⟩

end Rmob
